import Mathlib

/-!
Verification of the serial protocol core of `python_serial_reg/serial_reg.py`
(STM32 robot controller): the CRC-8 engine `crc8_atm`, the stream parser of
`_read_serial_loop`, the frame encoder of `_send_frame`, and the two decode
handlers `_decode_and_show_imu` / `_decode_and_log_cmd`.

Bytes are modelled as `Nat` (the Python code manipulates ints 0..255 coming
from `bytearray`); Python ints are modelled as `Int` where negatives matter
(the encoder value), with Python's two's-complement `&` and arithmetic `>>`
on negative ints expressed through `Int.emod` / `Int.fdiv`.  Wall-clock time
(`time.time()`, float seconds) is modelled as `Rat` seconds: the only use is
the comparison `now - last < 0.1`, exact on the rationals for the constants
involved.  IEEE-754 `float` telemetry fields are kept as raw little-endian
32-bit words (bit patterns); no claim needs their numeric interpretation.
-/

namespace SerialReg

/-- One inner iteration of `crc8_atm`'s bit loop:
`crc = (crc << 1) ^ 0x07` when bit 7 is set, else `crc = crc << 1`,
then `crc &= 0xFF`. -/
def crc8_round (crc : Nat) : Nat :=
  if crc &&& 0x80 ≠ 0 then ((crc <<< 1) ^^^ 0x07) &&& 0xFF
  else (crc <<< 1) &&& 0xFF

/-- Processing of one input byte by `crc8_atm`: `crc ^= byte` followed by
eight rounds of `crc8_round`. -/
def crc8_byte (crc byte : Nat) : Nat :=
  (List.range 8).foldl (fun c _ => crc8_round c) (crc ^^^ byte)

/-- `crc8_atm(data)` from `serial_reg.py`: CRC-8, polynomial 0x07, init 0x00. -/
def crc8_atm (data : List Nat) : Nat :=
  data.foldl crc8_byte 0x00

/-- `IMU_SIZE` in `_read_serial_loop`. -/
def IMU_SIZE : Nat := 37

/-- `CMD_SIZE` in `_read_serial_loop`. -/
def CMD_SIZE : Nat := 4

/-- A frame emitted by the stream parser: either a 37-byte IMU telemetry
packet (handed to `_decode_and_show_imu`) or a 4-byte command-response
packet (handed to `_decode_and_log_cmd`).  The raw packet bytes are kept. -/
inductive Frame where
  | imu (packet : List Nat) : Frame
  | cmd (packet : List Nat) : Frame
deriving DecidableEq, Repr

/-- The raw bytes of an emitted frame. -/
def Frame.bytes : Frame → List Nat
  | .imu p => p
  | .cmd p => p

/-- The wire size the parser attributes to a frame kind. -/
def Frame.size : Frame → Nat
  | .imu _ => IMU_SIZE
  | .cmd _ => CMD_SIZE

/-- One iteration of the inner `while len(self.rx_buffer) > 0` loop of
`_read_serial_loop`, acting on the front of the accumulator:
`none` when the loop `break`s (not enough buffered bytes to decide),
`some (fs, buf')` when it emits the frames `fs` (one or zero) and continues
on the shortened buffer `buf'`. -/
def read_step : List Nat → Option (List Frame × List Nat)
  | [] => none
  | b0 :: rest =>
    if b0 = 0xAA then
      -- CAS 1 : IMU frame (start 0xAA 0x55)
      match rest with
      | [] => none
      | b1 :: _ =>
        if b1 = 0x55 then
          if (b0 :: rest).length < IMU_SIZE then none
          else
            let packet := (b0 :: rest).take IMU_SIZE
            if crc8_atm packet.dropLast = packet.getLast! then
              some ([Frame.imu packet], (b0 :: rest).drop IMU_SIZE)
            else
              some ([], rest)
        else
          some ([], rest)
    else if b0 &&& 0x80 = 0 then
      -- CAS 2 : command response (header bit7 = 0)
      if (b0 :: rest).length < CMD_SIZE then none
      else
        let packet := (b0 :: rest).take CMD_SIZE
        if crc8_atm packet.dropLast = packet.getLast! then
          some ([Frame.cmd packet], (b0 :: rest).drop CMD_SIZE)
        else
          some ([], rest)
    else
      -- CAS 3 : unknown byte
      some ([], rest)

/-- Fuel-indexed iteration of `read_step`; `buf.length` fuel always
suffices since every `some` step strictly shortens the buffer. -/
def read_loopF : Nat → List Nat → List Frame × List Nat
  | 0, buf => ([], buf)
  | fuel + 1, buf =>
    match read_step buf with
    | none => ([], buf)
    | some (fs, buf2) =>
      let r := read_loopF fuel buf2
      (fs ++ r.1, r.2)

/-- The full inner loop of `_read_serial_loop` on an accumulator: runs
`read_step` to exhaustion, returning the emitted frames in order and the
leftover accumulator. -/
def read_loop (buf : List Nat) : List Frame × List Nat :=
  read_loopF buf.length buf

/-- One `feed` of newly received bytes (the `self.rx_buffer.extend(data)`
followed by the inner loop): append the chunk and parse. -/
def feed (buf : List Nat) (chunk : List Nat) : List Frame × List Nat :=
  read_loop (buf ++ chunk)

/-- Successive `feed`s of a list of chunks, accumulating emitted frames. -/
def feedChunks : List Nat → List (List Nat) → List Frame × List Nat
  | buf, [] => ([], buf)
  | buf, c :: cs =>
    let r := feed buf c
    let r2 := feedChunks r.2 cs
    (r.1 ++ r2.1, r2.2)

/-- Python `v & 0xFF` on an arbitrary int (two's-complement semantics). -/
def pyAnd0xFF (v : Int) : Nat := (v % 256).toNat

/-- Python `v >> 8` on an arbitrary int (arithmetic shift, i.e. floor
division by 256). -/
def pyShr8 (v : Int) : Int := Int.fdiv v 256

/-- The frame construction of `_send_frame`, after the entry fields have
been parsed: `hdr = (0x80 if is_read else 0x00) | addr` with
`addr = ... & 0x7F`, then `d0`/`d1` per mode, then the CRC appended. -/
def send_frame (addr : Nat) (is_read : Bool) (data_val : Int) : List Nat :=
  let hdr := (if is_read then 0x80 else 0x00) ||| (addr &&& 0x7F)
  let d0 := pyAnd0xFF data_val
  let d1 := if is_read then 0 else pyAnd0xFF (pyShr8 data_val)
  [hdr, d0, d1] ++ [crc8_atm [hdr, d0, d1]]

/-- Digit run of Python `int()`: every remaining character must be an
ASCII digit, accumulated base 10. -/
def pyDigitsAux : List Char → Nat → Option Nat
  | [], acc => some acc
  | c :: cs, acc =>
    if c.isDigit then pyDigitsAux cs (acc * 10 + (c.toNat - '0'.toNat))
    else none

/-- Python `int(s)` on an already-stripped string: optional sign followed
by at least one decimal digit; `ValueError` modelled as `none`.
(Underscore separators and non-ASCII digits, which the GUI never
produces, are not modelled.) -/
def pyInt? (s : String) : Option Int :=
  match s.toList with
  | [] => none
  | '-' :: cs =>
    match cs with
    | [] => none
    | _ => (pyDigitsAux cs 0).map (fun n => -(n : Int))
  | '+' :: cs =>
    match cs with
    | [] => none
    | _ => (pyDigitsAux cs 0).map (fun n => (n : Int))
  | cs => (pyDigitsAux cs 0).map (fun n => (n : Int))

/-- The data-entry handling of `_send_frame`:
`data_val = int(data_str) if data_str else 0`, with `int()`'s
`ValueError` (caught in the Python code, aborting the send) modelled as
`none`.  The entry string is taken after `.strip()`. -/
def send_frame_entry (addr : Nat) (is_read : Bool) (data_str : String) :
    Option (List Nat) :=
  match (if data_str = "" then some (0 : Int) else pyInt? data_str) with
  | none => none
  | some data_val => some (send_frame addr is_read data_val)

/-- Raw telemetry fields produced by
`struct.unpack('<BBBBIfffffffB', packet)`, keeping the seven `float`
fields as their raw little-endian 32-bit words. -/
structure ImuRaw where
  timestamp : Nat
  ax : Nat
  ay : Nat
  az : Nat
  gx : Nat
  gy : Nat
  gz : Nat
  speed : Nat
deriving DecidableEq, Repr

/-- Little-endian 32-bit word at offset `i` of a packet. -/
def le32At (p : List Nat) (i : Nat) : Nat :=
  p[i]! + 256 * p[i + 1]! + 65536 * p[i + 2]! + 16777216 * p[i + 3]!

/-- `struct.unpack('<BBBBIfffffffB', packet)`: succeeds exactly on
37-byte input (otherwise `struct.error` is raised, modelled as `none`). -/
def struct_unpack_imu (packet : List Nat) : Option ImuRaw :=
  if packet.length = 37 then
    some { timestamp := le32At packet 4
           ax := le32At packet 8, ay := le32At packet 12, az := le32At packet 16
           gx := le32At packet 20, gy := le32At packet 24, gz := le32At packet 28
           speed := le32At packet 32 }
  else none

/-- `_decode_and_show_imu(packet)`: given the previous `last_imu_update`
and the current time (seconds), returns the new `last_imu_update` and the
display update (`none` when nothing is rendered).  The 100 ms throttle
returns before decoding; the `except: pass` swallows the `struct.error`
of a wrong-length packet after `last_imu_update` was already advanced. -/
def decode_and_show_imu (last_imu_update now : Rat) (packet : List Nat) :
    Rat × Option ImuRaw :=
  if now - last_imu_update < 1 / 10 then (last_imu_update, none)
  else
    match struct_unpack_imu packet with
    | some r => (now, some r)
    | none => (now, none)

/-- `_decode_and_log_cmd(packet)`: reads `packet[0..3]`, extracts
`addr = header & 0x7F` and the signed 16-bit value; an out-of-range index
(fewer than 4 bytes) raises, caught by the handler — modelled as `none`. -/
def decode_and_log_cmd (packet : List Nat) : Option (Nat × Int) :=
  match packet with
  | header :: d0 :: d1 :: _crc :: _ =>
    let addr := header &&& 0x7F
    let value0 : Int := (d0 ||| (d1 <<< 8) : Nat)
    let value := if value0 > 32767 then value0 - 65536 else value0
    some (addr, value)
  | _ => none

/-! ### Basic parser lemmas -/

theorem take_append_of_le {α : Type} {l₁ l₂ : List α} {n : Nat}
    (h : n ≤ l₁.length) : (l₁ ++ l₂).take n = l₁.take n := by
  rw [List.take_append_eq_append_take, Nat.sub_eq_zero_of_le h]
  simp

theorem drop_append_of_le {α : Type} {l₁ l₂ : List α} {n : Nat}
    (h : n ≤ l₁.length) : (l₁ ++ l₂).drop n = l₁.drop n ++ l₂ := by
  rw [List.drop_append_eq_append_drop, Nat.sub_eq_zero_of_le h]
  simp

/-- Every productive `read_step` strictly shortens the accumulator. -/
theorem read_step_some_length {buf : List Nat} {fs : List Frame}
    {buf2 : List Nat} (h : read_step buf = some (fs, buf2)) :
    buf2.length < buf.length := by
  match buf with
  | [] => simp [read_step] at h
  | b0 :: rest =>
    simp only [read_step] at h
    split at h
    · match rest with
      | [] => simp at h
      | b1 :: rest2 =>
        simp only at h
        split at h
        · split at h
          · simp at h
          · rename_i hlen
            split at h
            · simp only [Option.some.injEq, Prod.mk.injEq] at h
              obtain ⟨-, h2⟩ := h
              subst h2
              simp only [List.length_drop, IMU_SIZE] at hlen ⊢
              omega
            · simp only [Option.some.injEq, Prod.mk.injEq] at h
              obtain ⟨-, h2⟩ := h
              subst h2
              simp
        · simp only [Option.some.injEq, Prod.mk.injEq] at h
          obtain ⟨-, h2⟩ := h
          subst h2
          simp
    · split at h
      · split at h
        · simp at h
        · rename_i hlen
          split at h
          · simp only [Option.some.injEq, Prod.mk.injEq] at h
            obtain ⟨-, h2⟩ := h
            subst h2
            simp only [List.length_drop, CMD_SIZE] at hlen ⊢
            omega
          · simp only [Option.some.injEq, Prod.mk.injEq] at h
            obtain ⟨-, h2⟩ := h
            subst h2
            simp
      · simp only [Option.some.injEq, Prod.mk.injEq] at h
        obtain ⟨-, h2⟩ := h
        subst h2
        simp

theorem read_loopF_nil (fuel : Nat) : read_loopF fuel [] = ([], []) := by
  cases fuel <;> simp [read_loopF, read_step]

/-- Any fuel at least the buffer length computes the same result. -/
theorem read_loopF_fuel :
    ∀ (f1 f2 : Nat) (buf : List Nat), buf.length ≤ f1 → buf.length ≤ f2 →
      read_loopF f1 buf = read_loopF f2 buf := by
  intro f1
  induction f1 with
  | zero =>
    intro f2 buf h1 _
    have : buf = [] := List.length_eq_zero.mp (Nat.le_zero.mp h1)
    subst this
    rw [read_loopF_nil, read_loopF_nil]
  | succ f ih =>
    intro f2 buf h1 h2
    match f2 with
    | 0 =>
      have : buf = [] := List.length_eq_zero.mp (Nat.le_zero.mp h2)
      subst this
      rw [read_loopF_nil, read_loopF_nil]
    | f2' + 1 =>
      match hs : read_step buf with
      | none => simp only [read_loopF, hs]
      | some (fs, buf2) =>
        have hlt := read_step_some_length hs
        simp only [read_loopF, hs]
        rw [ih f2' buf2 (by omega) (by omega)]

/-- Unfolding `read_loop` when the step suspends. -/
theorem read_loop_of_step_none {buf : List Nat} (h : read_step buf = none) :
    read_loop buf = ([], buf) := by
  unfold read_loop
  match buf with
  | [] => simp [read_loopF]
  | b :: rest => simp [read_loopF, h]

/-- Unfolding `read_loop` when the step produces. -/
theorem read_loop_of_step_some {buf : List Nat} {fs : List Frame}
    {buf2 : List Nat} (h : read_step buf = some (fs, buf2)) :
    read_loop buf = (fs ++ (read_loop buf2).1, (read_loop buf2).2) := by
  have hlt := read_step_some_length h
  unfold read_loop
  match buf with
  | [] => simp [read_step] at h
  | b :: rest =>
    simp only [List.length_cons, read_loopF, h]
    rw [read_loopF_fuel rest.length buf2.length buf2 (by simpa using Nat.lt_succ_iff.mp hlt) (Nat.le_refl _)]

/-- A productive `read_step` is insensitive to bytes appended behind the
accumulator: the same frames come out and the leftover keeps the suffix. -/
theorem read_step_append {buf : List Nat} {fs : List Frame} {buf2 : List Nat}
    (e : List Nat) (h : read_step buf = some (fs, buf2)) :
    read_step (buf ++ e) = some (fs, buf2 ++ e) := by
  match buf with
  | [] => simp [read_step] at h
  | b0 :: rest =>
    rw [List.cons_append]
    simp only [read_step] at h ⊢
    split
    · rename_i hb0
      rw [if_pos hb0] at h
      match rest with
      | [] => simp at h
      | b1 :: rest2 =>
        rw [List.cons_append]
        simp only at h ⊢
        split
        · rename_i hb1
          rw [if_pos hb1] at h
          split at h
          · simp at h
          · rename_i hlen
            have hlen' : IMU_SIZE ≤ (b0 :: b1 :: rest2).length := Nat.le_of_not_lt hlen
            rw [if_neg (by simp only [List.length_cons, List.length_append] at hlen ⊢; omega)]
            rw [show b0 :: b1 :: (rest2 ++ e) = (b0 :: b1 :: rest2) ++ e from rfl,
                take_append_of_le hlen', drop_append_of_le hlen']
            split at h <;> rename_i hcrc
            · rw [if_pos hcrc]
              simp only [Option.some.injEq, Prod.mk.injEq] at h
              obtain ⟨h1, h2⟩ := h
              subst h1; subst h2
              rfl
            · rw [if_neg hcrc]
              simp only [Option.some.injEq, Prod.mk.injEq] at h
              obtain ⟨h1, h2⟩ := h
              subst h1; subst h2
              rfl
        · rename_i hb1
          rw [if_neg hb1] at h
          simp only [Option.some.injEq, Prod.mk.injEq] at h
          obtain ⟨h1, h2⟩ := h
          subst h1; subst h2
          rfl
    · rename_i hb0
      rw [if_neg hb0] at h
      split
      · rename_i hb0'
        rw [if_pos hb0'] at h
        split at h
        · simp at h
        · rename_i hlen
          have hlen' : CMD_SIZE ≤ (b0 :: rest).length := Nat.le_of_not_lt hlen
          rw [if_neg (by simp only [List.length_cons, List.length_append] at hlen ⊢; omega)]
          rw [show b0 :: (rest ++ e) = (b0 :: rest) ++ e from rfl,
              take_append_of_le hlen', drop_append_of_le hlen']
          split at h <;> rename_i hcrc
          · rw [if_pos hcrc]
            simp only [Option.some.injEq, Prod.mk.injEq] at h
            obtain ⟨h1, h2⟩ := h
            subst h1; subst h2
            rfl
          · rw [if_neg hcrc]
            simp only [Option.some.injEq, Prod.mk.injEq] at h
            obtain ⟨h1, h2⟩ := h
            subst h1; subst h2
            rfl
      · rename_i hb0'
        rw [if_neg hb0'] at h
        simp only [Option.some.injEq, Prod.mk.injEq] at h
        obtain ⟨h1, h2⟩ := h
        subst h1; subst h2
        rfl

/-- Composing a parse with later bytes: parsing `buf ++ e` first yields
everything parsing `buf` alone yields, then continues on the leftover
with `e` appended. -/
theorem read_loop_append_aux :
    ∀ (n : Nat) (buf : List Nat), buf.length ≤ n → ∀ (e : List Nat),
      read_loop (buf ++ e) =
        ((read_loop buf).1 ++ (read_loop ((read_loop buf).2 ++ e)).1,
         (read_loop ((read_loop buf).2 ++ e)).2) := by
  intro n
  induction n using Nat.strong_induction_on with
  | _ n ih =>
    intro buf hlen e
    match hs : read_step buf with
    | none =>
      rw [read_loop_of_step_none hs]
      simp
    | some (fs, buf2) =>
      have hlt := read_step_some_length hs
      rw [read_loop_of_step_some hs,
          read_loop_of_step_some (read_step_append e hs),
          ih buf2.length (by omega) buf2 (Nat.le_refl _) e]
      simp [List.append_assoc]

theorem read_loop_append (buf e : List Nat) :
    read_loop (buf ++ e) =
      ((read_loop buf).1 ++ (read_loop ((read_loop buf).2 ++ e)).1,
       (read_loop ((read_loop buf).2 ++ e)).2) :=
  read_loop_append_aux buf.length buf (Nat.le_refl _) e

/-- Frames emitted by a single `read_step` pass the CRC check and have the
advertised wire size. -/
theorem read_step_frames {buf : List Nat} {fs : List Frame} {buf2 : List Nat}
    (h : read_step buf = some (fs, buf2)) :
    ∀ f ∈ fs, crc8_atm f.bytes.dropLast = f.bytes.getLast! ∧
      f.bytes.length = f.size := by
  match buf with
  | [] => simp [read_step] at h
  | b0 :: rest =>
    simp only [read_step] at h
    split at h
    · match rest with
      | [] => simp at h
      | b1 :: rest2 =>
        simp only at h
        split at h
        · split at h
          · simp at h
          · rename_i hlen
            split at h <;> rename_i hcrc <;>
              simp only [Option.some.injEq, Prod.mk.injEq] at h <;>
              obtain ⟨h1, -⟩ := h <;> subst h1
            · intro f hf
              rw [List.mem_singleton] at hf
              subst hf
              refine ⟨hcrc, ?_⟩
              simp only [Frame.bytes, Frame.size, List.length_take]
              simp only [List.length_cons, IMU_SIZE] at hlen ⊢
              omega
            · intro f hf
              simp at hf
        · simp only [Option.some.injEq, Prod.mk.injEq] at h
          obtain ⟨h1, -⟩ := h
          subst h1
          intro f hf
          simp at hf
    · split at h
      · split at h
        · simp at h
        · rename_i hlen
          split at h <;> rename_i hcrc <;>
            simp only [Option.some.injEq, Prod.mk.injEq] at h <;>
            obtain ⟨h1, -⟩ := h <;> subst h1
          · intro f hf
            rw [List.mem_singleton] at hf
            subst hf
            refine ⟨hcrc, ?_⟩
            simp only [Frame.bytes, Frame.size, List.length_take]
            simp only [List.length_cons, CMD_SIZE] at hlen ⊢
            omega
          · intro f hf
            simp at hf
      · simp only [Option.some.injEq, Prod.mk.injEq] at h
        obtain ⟨h1, -⟩ := h
        subst h1
        intro f hf
        simp at hf

theorem read_loop_frames_aux :
    ∀ (n : Nat) (buf : List Nat), buf.length ≤ n →
      ∀ f ∈ (read_loop buf).1, crc8_atm f.bytes.dropLast = f.bytes.getLast! ∧
        f.bytes.length = f.size := by
  intro n
  induction n using Nat.strong_induction_on with
  | _ n ih =>
    intro buf hlen f hf
    match hs : read_step buf with
    | none =>
      rw [read_loop_of_step_none hs] at hf
      simp at hf
    | some (fs, buf2) =>
      have hlt := read_step_some_length hs
      rw [read_loop_of_step_some hs] at hf
      rcases List.mem_append.mp hf with hmem | hmem
      · exact read_step_frames hs f hmem
      · exact ih buf2.length (by omega) buf2 (Nat.le_refl _) f hmem

/-- Frames emitted by a full parse pass the CRC check. -/
theorem read_loop_frames (buf : List Nat) :
    ∀ f ∈ (read_loop buf).1, crc8_atm f.bytes.dropLast = f.bytes.getLast! ∧
      f.bytes.length = f.size :=
  read_loop_frames_aux buf.length buf (Nat.le_refl _)

theorem feedChunks_frames :
    ∀ (chunks : List (List Nat)) (buf : List Nat),
      ∀ f ∈ (feedChunks buf chunks).1,
        crc8_atm f.bytes.dropLast = f.bytes.getLast! ∧
          f.bytes.length = f.size := by
  intro chunks
  induction chunks with
  | nil =>
    intro buf f hf
    simp [feedChunks] at hf
  | cons c cs ih =>
    intro buf f hf
    simp only [feedChunks] at hf
    rcases List.mem_append.mp hf with hmem | hmem
    · exact read_loop_frames _ f hmem
    · exact ih _ f hmem

theorem flatten_map_singleton :
    ∀ (bs : List Nat), (bs.map (fun b => [b])).flatten = bs := by
  intro bs
  induction bs with
  | nil => simp
  | cons b bs ih => simp [ih]

/-- `feedChunks` over a non-empty chunk list is one big parse of the
concatenation. -/
theorem feedChunks_cons_flatten :
    ∀ (cs : List (List Nat)) (buf c : List Nat),
      feedChunks buf (c :: cs) = read_loop ((buf ++ c) ++ cs.flatten) := by
  intro cs
  induction cs with
  | nil =>
    intro buf c
    simp [feedChunks, feed]
  | cons c2 cs2 ih =>
    intro buf c
    have h1 : feedChunks buf (c :: c2 :: cs2) =
        ((feed buf c).1 ++ (feedChunks (feed buf c).2 (c2 :: cs2)).1,
         (feedChunks (feed buf c).2 (c2 :: cs2)).2) := rfl
    rw [h1, ih]
    simp only [feed]
    rw [show (buf ++ c) ++ (c2 :: cs2).flatten =
          (buf ++ c) ++ (c2 ++ cs2.flatten) from by simp]
    rw [read_loop_append (buf ++ c) (c2 ++ cs2.flatten)]
    simp [List.append_assoc]

/-! ### Claim theorems -/

/-- C1: for every frame the stream parser emits to a decoder — across any
sequence of fed byte chunks — the CRC-8 of all bytes except the last equals
the last byte, and the frame has its advertised size (37 bytes for IMU
telemetry, 4 bytes for a command response); the parser never emits a frame
failing this check. -/
theorem parser_emits_only_checked_frames
    (buf : List Nat) (chunks : List (List Nat)) (f : Frame)
    (hf : f ∈ (feedChunks buf chunks).1) :
    crc8_atm f.bytes.dropLast = f.bytes.getLast! ∧ f.bytes.length = f.size :=
  feedChunks_frames chunks buf f hf

theorem parser_emits_only_checked_frames_witness :
    crc8_atm (Frame.cmd [0x01, 0x0C, 0xFE, 0x63]).bytes.dropLast =
        (Frame.cmd [0x01, 0x0C, 0xFE, 0x63]).bytes.getLast! ∧
      (Frame.cmd [0x01, 0x0C, 0xFE, 0x63]).bytes.length =
        (Frame.cmd [0x01, 0x0C, 0xFE, 0x63]).size :=
  parser_emits_only_checked_frames [] [[0x01, 0x0C, 0xFE, 0x63]]
    (Frame.cmd [0x01, 0x0C, 0xFE, 0x63]) (by decide)

/-- C3: feeding a non-empty byte sequence to the parser split into 1-byte
chunks across successive `feed` calls yields exactly the same frames, in
the same order, and the same final accumulator, as feeding the whole
sequence in one call from the same starting state. -/
theorem chunking_invariance (buf : List Nat) (bytes : List Nat)
    (hne : bytes ≠ []) :
    feedChunks buf (bytes.map fun b => [b]) = feedChunks buf [bytes] := by
  match bytes with
  | [] => exact absurd rfl hne
  | b :: bs =>
    rw [show (b :: bs).map (fun b => [b]) = [b] :: bs.map (fun b => [b])
          from rfl]
    rw [feedChunks_cons_flatten, feedChunks_cons_flatten]
    rw [flatten_map_singleton]
    simp [List.append_assoc]

theorem chunking_invariance_witness :
    feedChunks [] ([0x01, 0x0C, 0xFE, 0x63].map fun b => [b]) =
      feedChunks [] [[0x01, 0x0C, 0xFE, 0x63]] :=
  chunking_invariance [] [0x01, 0x0C, 0xFE, 0x63] (by decide)

/-- C4: whenever the parser rejects the bytes at the head of the
accumulator — leading `0xAA` whose second byte is not `0x55`, a 37-byte or
4-byte candidate whose CRC check fails, or a leading high-bit byte that is
not `0xAA` — it removes exactly one byte from the front, emits nothing,
and retries; parsing then continues exactly as on the buffer without its
first byte, so a valid frame starting inside the rejected bytes is still
found and emitted later. -/
theorem reject_drops_exactly_one_byte :
    (∀ (b1 : Nat) (rest : List Nat), b1 ≠ 0x55 →
        read_step (0xAA :: b1 :: rest) = some ([], b1 :: rest)) ∧
    (∀ rest : List Nat, ¬ (0xAA :: 0x55 :: rest).length < IMU_SIZE →
        crc8_atm ((0xAA :: 0x55 :: rest).take IMU_SIZE).dropLast ≠
          ((0xAA :: 0x55 :: rest).take IMU_SIZE).getLast! →
        read_step (0xAA :: 0x55 :: rest) = some ([], 0x55 :: rest)) ∧
    (∀ (b0 : Nat) (rest : List Nat), b0 ≠ 0xAA → b0 &&& 0x80 = 0 →
        ¬ (b0 :: rest).length < CMD_SIZE →
        crc8_atm ((b0 :: rest).take CMD_SIZE).dropLast ≠
          ((b0 :: rest).take CMD_SIZE).getLast! →
        read_step (b0 :: rest) = some ([], rest)) ∧
    (∀ (b0 : Nat) (rest : List Nat), b0 ≠ 0xAA → b0 &&& 0x80 ≠ 0 →
        read_step (b0 :: rest) = some ([], rest)) ∧
    (∀ (buf rest : List Nat), read_step buf = some ([], rest) →
        read_loop buf = read_loop rest) := by
  refine ⟨?_, ?_, ?_, ?_, ?_⟩
  · intro b1 rest h
    simp [read_step, h]
  · intro rest hlen hcrc
    simp only [List.length_cons] at hlen
    simp [read_step, hcrc]
    omega
  · intro b0 rest hb hbit hlen hcrc
    simp only [List.length_cons] at hlen
    simp [read_step, hb, hbit, hcrc]
    omega
  · intro b0 rest hb hbit
    simp [read_step, hb, hbit]
  · intro buf rest h
    rw [read_loop_of_step_some h]
    simp

set_option maxRecDepth 100000 in
theorem reject_drops_exactly_one_byte_witness :
    read_step [0xAA, 0x00] = some ([], [0x00]) ∧
    read_step (0xAA :: 0x55 :: List.replicate 35 0) =
      some ([], 0x55 :: List.replicate 35 0) ∧
    read_step [0x00, 0x00, 0x00, 0x01] = some ([], [0x00, 0x00, 0x01]) ∧
    read_step [0xFF] = some ([], []) ∧
    read_loop [0xFF] = read_loop [] :=
  ⟨reject_drops_exactly_one_byte.1 0x00 [] (by decide),
   reject_drops_exactly_one_byte.2.1 (List.replicate 35 0) (by decide)
     (by decide),
   reject_drops_exactly_one_byte.2.2.1 0x00 [0x00, 0x00, 0x01] (by decide)
     (by decide) (by decide) (by decide),
   reject_drops_exactly_one_byte.2.2.2.1 0xFF [] (by decide) (by decide),
   reject_drops_exactly_one_byte.2.2.2.2 [0xFF] []
     (reject_drops_exactly_one_byte.2.2.2.1 0xFF [] (by decide) (by decide))⟩

/-! ### Bit-arithmetic helpers -/

theorem pow27 : (2 : Nat) ^ 7 = 128 := by norm_num

theorem pow28 : (2 : Nat) ^ 8 = 256 := by norm_num

theorem and_7F_eq_mod {x : Nat} : x &&& 127 = x % 128 := by
  rw [show (127 : Nat) = 2 ^ 7 - 1 from by norm_num,
      Nat.and_pow_two_sub_one_eq_mod, pow27]

theorem lor_low_bits_add {d0 d1 : Nat} (h : d0 < 256) :
    d0 ||| d1 <<< 8 = d0 + 256 * d1 := by
  have h8 : d0 < 2 ^ 8 := by rw [pow28]; exact h
  have hor := Nat.mul_add_lt_is_or (a := d1) h8
  rw [Nat.shiftLeft_eq, Nat.lor_comm, Nat.mul_comm d1 (2 ^ 8), ← hor, pow28]
  omega

theorem lor_high_bit_add {m : Nat} (h : m < 128) : 128 ||| m = 128 + m := by
  have h7 : m < 2 ^ 7 := by rw [pow27]; exact h
  have hor := Nat.mul_add_lt_is_or (a := 1) h7
  rw [show (128 : Nat) = 2 ^ 7 * 1 from by norm_num, ← hor]

theorem crc8_round_lt (c : Nat) : crc8_round c < 256 := by
  unfold crc8_round
  split <;> exact Nat.lt_succ_of_le Nat.and_le_right

theorem crc8_byte_lt (c b : Nat) : crc8_byte c b < 256 := by
  show crc8_round (crc8_round (crc8_round (crc8_round (crc8_round (crc8_round
      (crc8_round (crc8_round (c ^^^ b)))))))) < 256
  exact crc8_round_lt _

theorem foldl_crc8_byte_lt :
    ∀ (l : List Nat) (acc : Nat), acc < 256 →
      l.foldl crc8_byte acc < 256 := by
  intro l
  induction l with
  | nil => intro acc h; simpa using h
  | cons d ds ih =>
    intro acc h
    simpa using ih (crc8_byte acc d) (crc8_byte_lt _ _)

/-- A concrete CRC-valid 37-byte telemetry frame used as a test vector:
magic `0xAA 0x55`, all-zero payload, correct trailing CRC (0x12). -/
def imuTestFrame : List Nat :=
  0xAA :: 0x55 :: List.replicate 34 0 ++ [0x12]

/-- The telemetry handler under the 100 ms throttle: early return, state
and display untouched. -/
theorem decode_show_throttled {last now : Rat} {p : List Nat}
    (h : now - last < 1 / 10) :
    decode_and_show_imu last now p = (last, none) := by
  unfold decode_and_show_imu
  rw [if_pos h]

/-- The telemetry handler past the throttle: timestamp advanced, display
update exactly the `struct.unpack` result. -/
theorem decode_show_pass {last now : Rat} {p : List Nat}
    (h : ¬ now - last < 1 / 10) :
    decode_and_show_imu last now p = (now, struct_unpack_imu p) := by
  unfold decode_and_show_imu
  rw [if_neg h]
  match hu : struct_unpack_imu p with
  | some r => rfl
  | none => rfl

/-! ### Claim theorems (continued) -/

set_option maxRecDepth 100000 in
/-- C2 (counterexample): a CRC-valid 37-byte telemetry frame is emitted by
the parser, yet when it reaches `_decode_and_show_imu` only 50 ms after
the previous rendered update, the handler returns before decoding: the
validated frame is dropped undecoded, not merely left unrendered. -/
theorem throttle_drops_validated_frame :
    crc8_atm imuTestFrame.dropLast = imuTestFrame.getLast! ∧
    feedChunks [] [imuTestFrame] = ([Frame.imu imuTestFrame], []) ∧
    decode_and_show_imu 0 (1 / 20) imuTestFrame = (0, none) := by
  refine ⟨by decide, by decide, ?_⟩
  exact decode_show_throttled (by norm_num)

/-- C2 (amended): the 100 ms rate limit sits inside the telemetry handler
before decoding: a validated frame arriving less than 0.1 s after the last
rendered update is dropped entirely (handler state unchanged, nothing
decoded or displayed), while a 37-byte frame arriving at least 0.1 s
later is decoded and displayed. -/
theorem throttle_gates_decode :
    (∀ (last now : Rat) (packet : List Nat), now - last < 1 / 10 →
        decode_and_show_imu last now packet = (last, none)) ∧
    (∀ (last now : Rat) (packet : List Nat), ¬ now - last < 1 / 10 →
        packet.length = 37 →
        (decode_and_show_imu last now packet).2.isSome = true) := by
  constructor
  · intro last now p h
    exact decode_show_throttled h
  · intro last now p h hl
    rw [decode_show_pass h]
    simp [struct_unpack_imu, hl]

theorem throttle_gates_decode_witness :
    decode_and_show_imu 0 (1 / 20) (List.replicate 37 0) = (0, none) ∧
    (decode_and_show_imu 0 1 (List.replicate 37 0)).2.isSome = true :=
  ⟨throttle_gates_decode.1 0 (1 / 20) (List.replicate 37 0) (by norm_num),
   throttle_gates_decode.2 0 1 (List.replicate 37 0) (by norm_num)
     (by decide)⟩

/-- C5 (counterexample): feeding the exact 4 bytes produced by
`_send_frame` for register 0x01, write mode, value −500 into the parser
as a single chunk from an empty accumulator DOES yield a command-response
frame, contrary to the claim: a write request and a response both carry
bit 7 = 0 in the header and a valid CRC, so the parser cannot tell them
apart. -/
theorem request_bytes_yield_response_frame :
    Frame.cmd (send_frame 0x01 false (-500)) ∈
      (feedChunks [] [send_frame 0x01 false (-500)]).1 := by decide

/-- C5 (amended): feeding the exact 4 bytes of
`_send_frame(register 0x01, write, −500)` into the parser as a single
chunk from an empty accumulator yields exactly one frame, classified as a
command-response frame, and empties the accumulator. -/
theorem request_bytes_parse_as_response :
    feedChunks [] [send_frame 0x01 false (-500)] =
      ([Frame.cmd (send_frame 0x01 false (-500))], []) := by decide

/-- C6: the command-response decoder extracts `register = header & 0x7F`
(= header mod 128) and the little-endian 16-bit value with
two's-complement sign correction — i.e. the balanced residue of
`dataLow + 256·dataHigh` modulo 65536; the synthetic response
`[0x01, 0x0C, 0xFE, crc]` decodes to −500. -/
theorem cmd_decoder_two_complement :
    (∀ (hd d0 d1 c : Nat) (rest : List Nat), d0 < 256 → d1 < 256 →
        decode_and_log_cmd (hd :: d0 :: d1 :: c :: rest) =
          some (hd % 128, Int.bmod ((d0 : Int) + 256 * (d1 : Int)) 65536)) ∧
    decode_and_log_cmd [0x01, 0x0C, 0xFE, crc8_atm [0x01, 0x0C, 0xFE]] =
      some (0x01, -500) := by
  constructor
  · intro hd d0 d1 c rest h0 h1
    simp only [decode_and_log_cmd]
    rw [lor_low_bits_add h0, and_7F_eq_mod]
    have hval : (if ((d0 + 256 * d1 : Nat) : Int) > 32767
          then ((d0 + 256 * d1 : Nat) : Int) - 65536
          else ((d0 + 256 * d1 : Nat) : Int)) =
        Int.bmod ((d0 : Int) + 256 * (d1 : Int)) 65536 := by
      rw [Int.bmod_def]
      push_cast
      split <;> split <;> omega
    rw [hval]
  · decide

theorem cmd_decoder_two_complement_witness :
    decode_and_log_cmd [0x23, 0xFF, 0x7F, 0x00] =
      some (0x23 % 128, Int.bmod ((0xFF : Int) + 256 * (0x7F : Int)) 65536) :=
  cmd_decoder_two_complement.1 0x23 0xFF 0x7F 0x00 [] (by decide) (by decide)

/-- C7: for every register, read flag and integer value the encoder
produces exactly `[header, byte0, byte1, crc]` where
`header = (0x80 when reading) + register mod 128`, `byte0` is the low
byte and `byte1` (zero when reading) the high byte of the value's 16-bit
two's-complement pattern, and `crc` is the CRC-8 of the first three
bytes; it is total, silently masking out-of-range register and value to
their low bits. -/
theorem encoder_layout (register : Nat) (isRead : Bool) (value : Int) :
    send_frame register isRead value =
      [(if isRead then 128 else 0) + register % 128,
       (value % 65536).toNat % 256,
       if isRead then 0 else (value % 65536).toNat / 256,
       crc8_atm [(if isRead then 128 else 0) + register % 128,
                 (value % 65536).toNat % 256,
                 if isRead then 0 else (value % 65536).toNat / 256]] ∧
    (send_frame register isRead value).length = 4 := by
  have hdvd : (256 : Int) ∣ 65536 := by norm_num
  have h2 : 0 ≤ value % 65536 := Int.emod_nonneg _ (by norm_num)
  have h3 : value % 65536 < 65536 := Int.emod_lt_of_pos _ (by norm_num)
  have hd0 : pyAnd0xFF value = (value % 65536).toNat % 256 := by
    unfold pyAnd0xFF
    rw [show value % 256 = value % 65536 % 256 from
          (Int.emod_emod_of_dvd value hdvd).symm]
    omega
  have hd1 : pyAnd0xFF (pyShr8 value) = (value % 65536).toNat / 256 := by
    unfold pyAnd0xFF pyShr8
    rw [Int.fdiv_eq_ediv _ (by norm_num)]
    have h1 : value = 65536 * (value / 65536) + value % 65536 :=
      (Int.ediv_add_emod value 65536).symm
    have h4 : value / 256 = value % 65536 / 256 + 256 * (value / 65536) := by
      conv_lhs => rw [h1]
      rw [show (65536 : Int) * (value / 65536) + value % 65536
            = value % 65536 + 256 * (256 * (value / 65536)) from by ring]
      rw [Int.add_mul_ediv_left _ _ (by norm_num : (256 : Int) ≠ 0)]
    rw [h4]
    omega
  have hhdr : ((if isRead then 0x80 else 0x00) : Nat) ||| (register &&& 0x7F)
      = (if isRead then 128 else 0) + register % 128 := by
    rw [and_7F_eq_mod]
    cases isRead
    · simp
    · simpa using lor_high_bit_add (Nat.mod_lt register (by norm_num))
  constructor
  · simp only [send_frame]
    rw [hhdr, hd0, hd1]
    rfl
  · simp [send_frame]

/-- C8 (counterexample): a wrong-length telemetry frame does not surface
an explicit decode error: `struct.unpack` fails, but the handler's
catch-all swallows the failure and returns normally with no display
update and no error indication — the same observable outcome as a
silently skipped frame. -/
theorem wrong_length_silently_ignored :
    struct_unpack_imu (List.replicate 36 0) = none ∧
    decode_and_show_imu 0 1 (List.replicate 36 0) = (1, none) := by
  constructor
  · decide
  · rw [decode_show_pass (by norm_num)]
    rw [show struct_unpack_imu (List.replicate 36 0) = none from by decide]

/-- C8 (amended): the payload decoder (`struct.unpack`) fails exactly on
input whose length is not 37 bytes and succeeds on every 37-byte input;
but the failure is swallowed by the handler's catch-all, which returns
normally with no display update, so no explicit error is surfaced. -/
theorem unpack_length_contract :
    (∀ packet : List Nat,
        (struct_unpack_imu packet).isSome = true ↔ packet.length = 37) ∧
    (∀ (last now : Rat) (packet : List Nat), packet.length ≠ 37 →
        (decode_and_show_imu last now packet).2 = none) := by
  constructor
  · intro p
    by_cases h : p.length = 37 <;> simp [struct_unpack_imu, h]
  · intro last now p h
    have hu : struct_unpack_imu p = none := by simp [struct_unpack_imu, h]
    by_cases ht : now - last < 1 / 10
    · rw [decode_show_throttled ht]
    · rw [decode_show_pass ht, hu]

theorem unpack_length_contract_witness :
    ((struct_unpack_imu (List.replicate 37 0)).isSome = true ↔
      (List.replicate 37 0).length = 37) ∧
    (decode_and_show_imu 0 1 (List.replicate 36 0)).2 = none :=
  ⟨unpack_length_contract.1 (List.replicate 37 0),
   unpack_length_contract.2 0 1 (List.replicate 36 0) (by decide)⟩

/-- C9: `crc8_atm` is the deterministic, total, MSB-first CRC-8 with
polynomial 0x07, init 0x00, no final XOR and no reflection: it obeys the
byte-at-a-time recurrence, its result always fits in 8 bits, and it
matches the spec's vectors (`[] ↦ 0x00`, `[0,0,0] ↦ 0x00`,
`[0x01] ↦ 0x07`). -/
theorem crc8_spec_properties :
    (∀ (data : List Nat) (b : Nat),
        crc8_atm (data ++ [b]) = crc8_byte (crc8_atm data) b) ∧
    (∀ data : List Nat, crc8_atm data < 256) ∧
    crc8_atm [] = 0x00 ∧
    crc8_atm [0x00, 0x00, 0x00] = 0x00 ∧
    crc8_atm [0x01] = 0x07 := by
  refine ⟨?_, ?_, by decide, by decide, by decide⟩
  · intro data b
    simp [crc8_atm]
  · intro data
    cases data with
    | nil => decide
    | cons d ds =>
      show ds.foldl crc8_byte (crc8_byte 0 d) < 256
      exact foldl_crc8_byte_lt ds (crc8_byte 0 d) (crc8_byte_lt _ _)

/-- C10: an empty data-entry string encodes value 0: for every register
and mode the built frame is `[header, 0x00, 0x00, crc8([header,0,0])]`,
identical to the frame built from the explicit entry "0". -/
theorem empty_data_entry_encodes_zero (addr : Nat) (is_read : Bool) :
    send_frame_entry addr is_read "" = send_frame_entry addr is_read "0" ∧
    send_frame_entry addr is_read "" =
      some [(if is_read then 0x80 else 0x00) ||| (addr &&& 0x7F), 0x00, 0x00,
            crc8_atm [(if is_read then 0x80 else 0x00) ||| (addr &&& 0x7F),
                      0x00, 0x00]] := by
  constructor
  · rfl
  · cases is_read <;> rfl


end SerialReg
